import Mathlib

/-
  Verification of the BST engine in `bst_ext.c` (insert, delete, traversals,
  statistics, predecessor/successor, preorder-with-sentinel save/load).
  C pointer trees are embedded as an inductive `Tree`; `NULL` is `leaf`.
  C `int` keys are embedded as `Int`; counts and heights as `Nat`.
-/

namespace BstExt

/-- `struct Node`: a key plus optional left/right children; `leaf` is `NULL`. -/
inductive Tree where
  | leaf : Tree
  | node (key : Int) (left : Tree) (right : Tree) : Tree
deriving DecidableEq, Repr

open Tree

/-- `insert_recursive`: descend by comparison, attach a fresh leaf at an
absent position, ignore duplicates. -/
def insert_recursive : Tree → Int → Tree
  | leaf, key => node key leaf leaf
  | node k l r, key =>
    if key < k then node k (insert_recursive l key) r
    else if k < key then node k l (insert_recursive r key)
    else node k l r

/-- One frame of the iterative insert's walk: the visited node's key, whether
the walk went left (`true`) or right (`false`), and the untouched sibling. -/
def Frame := Int × Bool × Tree

/-- The `while (cur)` loop of `insert_iterative`: follow comparisons down from
`cur`, recording the path; `none` means a duplicate key was met. -/
def descendPath (key : Int) : Tree → List Frame → Option (List Frame)
  | leaf, path => some path
  | node k l r, path =>
    if key < k then descendPath key l ((k, true, r) :: path)
    else if k < key then descendPath key r ((k, false, l) :: path)
    else none

/-- Reattach the recorded path around an updated subtree (the functional
reading of the C code's in-place `parent->left/right = newNode(key)`). -/
def rebuild : List Frame → Tree → Tree
  | [], t => t
  | (k, true, sib) :: p, t => rebuild p (node k t sib)
  | (k, false, sib) :: p, t => rebuild p (node k sib t)

/-- `insert_iterative`: walk with an explicit parent pointer and attach the
new leaf directly; on a duplicate return the root unchanged. -/
def insert_iterative (root : Tree) (key : Int) : Tree :=
  match root with
  | leaf => node key leaf leaf
  | node k l r =>
    match descendPath key (node k l r) [] with
    | none => node k l r
    | some path => rebuild path (node key leaf leaf)

/-- `minValueNode`: follow left children from `node` until the left child is
`NULL`; on `NULL` input the C loop returns `NULL`. -/
def minValueNode : Tree → Tree
  | leaf => leaf
  | node k l r =>
    match l with
    | leaf => node k l r
    | node k2 l2 r2 => minValueNode (node k2 l2 r2)

/-- Key of `minValueNode`; the `0` default is never reached where the C code
dereferences the result (`deleteNode` only calls it on a non-null subtree). -/
def minKeyD (t : Tree) : Int :=
  match minValueNode t with
  | leaf => 0
  | node k _ _ => k

/-- `deleteNode`: comparison descent; absent key is a no-op; 0/1-child nodes
are spliced out; a 2-child node receives its right subtree's minimum key and
that key is deleted from the right subtree. -/
def deleteNode : Tree → Int → Tree
  | leaf, _ => leaf
  | node k l r, key =>
    if key < k then node k (deleteNode l key) r
    else if k < key then node k l (deleteNode r key)
    else if l = leaf then r
    else if r = leaf then l
    else node (minKeyD r) l (deleteNode r (minKeyD r))

/-- `inorder` traversal: left, self, right. -/
def inorder : Tree → List Int
  | leaf => []
  | node k l r => inorder l ++ k :: inorder r

/-- `preorder` traversal: self, left, right. -/
def preorder : Tree → List Int
  | leaf => []
  | node k l r => k :: (preorder l ++ preorder r)

/-- `postorder` traversal: left, right, self. -/
def postorder : Tree → List Int
  | leaf => []
  | node k l r => postorder l ++ postorder r ++ [k]

/-- `height`: 0 on `NULL`, else `(lh > rh ? lh : rh) + 1`. -/
def height : Tree → Nat
  | leaf => 0
  | node _ l r => (if height r < height l then height l else height r) + 1

/-- `count_nodes`. -/
def count_nodes : Tree → Nat
  | leaf => 0
  | node _ l r => 1 + count_nodes l + count_nodes r

/-- `count_leaves`. -/
def count_leaves : Tree → Nat
  | leaf => 0
  | node _ l r =>
    if l = leaf ∧ r = leaf then 1
    else count_leaves l + count_leaves r

/-- Queue-footprint measure used to justify termination of the BFS loop. -/
def sizeT : Tree → Nat
  | leaf => 1
  | node _ l r => 1 + sizeT l + sizeT r

/-- The `while (head)` loop of `levelOrder`: dequeue, emit the key, enqueue
the non-null children left-then-right. -/
def levelAux : List Tree → List Int
  | [] => []
  | leaf :: q => levelAux q
  | node k l r :: q =>
    k :: levelAux (q ++ (if l = leaf then [] else [l]) ++ (if r = leaf then [] else [r]))
termination_by q => (q.map sizeT).sum
decreasing_by
  · simp [List.map_cons, List.sum_cons, sizeT]
  · simp only [List.map_append, List.sum_append, List.map_cons, List.sum_cons]
    have hl : ((if l = leaf then ([] : List Tree) else [l]).map sizeT).sum ≤ sizeT l := by
      split <;> simp_all [sizeT]
    have hr : ((if r = leaf then ([] : List Tree) else [r]).map sizeT).sum ≤ sizeT r := by
      split <;> simp_all [sizeT]
    simp [sizeT] at *
    omega

/-- `levelOrder`: breadth-first traversal seeded with a non-null root. -/
def levelOrder (root : Tree) : List Int :=
  match root with
  | leaf => []
  | t => levelAux [t]

/-- The key list of a tree (its inorder sequence). -/
def keys (t : Tree) : List Int := inorder t

/-- The BST property: at every node all left-subtree keys are strictly below
the node's key and all right-subtree keys strictly above. -/
def isBST : Tree → Bool
  | leaf => true
  | node k l r =>
    (keys l).all (fun x => decide (x < k)) &&
    (keys r).all (fun x => decide (k < x)) &&
    isBST l && isBST r

/-- Decimal digit character for `d ≤ 9`. -/
def digitChar (d : Nat) : Char := Char.ofNat (48 + d)

/-- Decimal digits of a natural number, most significant first (the digit
part of `printf` with the d conversion). -/
def natDigits (n : Nat) : List Char :=
  if _h : n < 10 then [digitChar n]
  else natDigits (n / 10) ++ [digitChar (n % 10)]
decreasing_by
  exact Nat.div_lt_self (by omega) (by omega)

/-- Characters that `printf` with the d conversion emits for an `int`. -/
def intChars (k : Int) : List Char :=
  if k < 0 then '-' :: natDigits k.natAbs else natDigits k.toNat

/-- The token `fprintf(fp, sep-terminated d conversion, root->key)` writes. -/
def intTok (k : Int) : String := String.mk (intChars k)

/-- The sentinel token written for a `NULL` child. -/
def hashTok : String := String.mk ['#']

/-- `save_tree_preorder`: preorder token stream with a sentinel at every
absent position. -/
def save_tree_preorder : Tree → List String
  | leaf => [hashTok]
  | node k l r => intTok k :: (save_tree_preorder l ++ save_tree_preorder r)

/-- C library `isspace` on the characters `fscanf` treats as whitespace. -/
def isSpaceC (c : Char) : Bool :=
  c = ' ' || c = '\t' || c = '\n' || c = '\x0b' || c = '\x0c' || c = '\r'

/-- The digit-consuming loop of `atoi`: accumulate base-10 digits, stop at
the first non-digit. -/
def digitsVal : List Char → Nat → Nat
  | [], acc => acc
  | c :: cs, acc =>
    if c.isDigit then digitsVal cs (acc * 10 + (c.toNat - 48)) else acc

/-- Leading-whitespace skipping of `atoi`. -/
def skipSpaces : List Char → List Char
  | [] => []
  | c :: cs => if isSpaceC c then skipSpaces cs else c :: cs

/-- C library `atoi`: skip whitespace, optional sign, then leading digits;
a token with no digit prefix yields 0. -/
def atoi (s : String) : Int :=
  match skipSpaces s.data with
  | [] => 0
  | c :: cs =>
    if c = '-' then -(digitsVal cs 0 : Int)
    else if c = '+' then (digitsVal cs 0 : Int)
    else (digitsVal (c :: cs) 0 : Int)

/-- `load_tree_preorder` with the bound that parsing consumes a prefix of the
token stream, which justifies termination of the two recursive reads. -/
def loadP : (toks : List String) → { p : Tree × List String // p.2.length ≤ toks.length }
  | [] => ⟨(leaf, []), by simp⟩
  | s :: rest =>
    if s = hashTok then ⟨(leaf, rest), by simp⟩
    else
      match loadP rest with
      | ⟨(l, r1), h1⟩ =>
        match loadP r1 with
        | ⟨(r, r2), h2⟩ =>
          ⟨(node (atoi s) l r, r2), by
            have h1x : r1.length ≤ rest.length := h1
            have h2x : r2.length ≤ r1.length := h2
            simp only [List.length_cons]
            omega⟩
termination_by toks => toks.length
decreasing_by
  · simp
  · have h1x : r1.length ≤ rest.length := h1
    simp only [List.length_cons]
    omega

/-- `load_tree_preorder`: read one tree from the token stream; `fscanf`
failure (end of stream) yields `NULL`, a sentinel yields `NULL`, any other
token is fed to `atoi` and becomes a node. Returns the unconsumed tokens. -/
def load_tree_preorder (toks : List String) : Tree × List String :=
  (loadP toks).1

/-- Menu choice 9 of `main`: `free_tree(root); root = load_tree_preorder(fp)`
— the previous tree is discarded before the stream is read. -/
def loadOverwrite (_oldRoot : Tree) (toks : List String) : Tree :=
  (load_tree_preorder toks).1

/-- Modelled from the spec: a valid INTEGER token of the persisted grammar
(optional sign followed by at least one digit, nothing else). -/
def validIntToken (s : String) : Bool :=
  match s.data with
  | '-' :: cs => cs ≠ [] && cs.all Char.isDigit
  | '+' :: cs => cs ≠ [] && cs.all Char.isDigit
  | cs => cs ≠ [] && cs.all Char.isDigit

/-- Modelled from the spec: the grammar check for one serialized tree
(`node := sentinel | INTEGER node node`); `none` marks a malformed stream
(unexpected end of stream or an invalid token), `some rest` the unconsumed
suffix after one well-formed tree. -/
def checkTree : (toks : List String) → Option { rest : List String // rest.length ≤ toks.length }
  | [] => none
  | s :: rest =>
    if s = hashTok then some ⟨rest, by simp⟩
    else if validIntToken s then
      match checkTree rest with
      | none => none
      | some ⟨r1, h1⟩ =>
        match checkTree r1 with
        | none => none
        | some ⟨r2, h2⟩ => some ⟨r2, by
            simp only [List.length_cons]
            omega⟩
    else none
termination_by toks => toks.length
decreasing_by
  · simp
  · simp only [List.length_cons]
    omega

/-- Modelled from the spec: a stream is well-formed when one tree parses from
it per the grammar. -/
def wellFormedStream (toks : List String) : Bool :=
  (checkTree toks).isSome

/-- `predecessor`: the descending walk, carrying the best candidate seen so
far; on an exact key match with a left child present, the rightmost node of
that left subtree overrides the candidate. -/
def maxValueNode : Tree → Tree
  | leaf => leaf
  | node k l r =>
    match r with
    | leaf => node k l r
    | node k2 l2 r2 => maxValueNode (node k2 l2 r2)

/-- Key of the rightmost node, `none` on `NULL` (the `while (pred->right)`
walk in `predecessor`). -/
def rightmostKey (t : Tree) : Option Int :=
  match maxValueNode t with
  | leaf => none
  | node k _ _ => some k

/-- Key of the leftmost node, `none` on `NULL` (the `while (succ->left)`
walk in `successor`). -/
def leftmostKey (t : Tree) : Option Int :=
  match minValueNode t with
  | leaf => none
  | node k _ _ => some k

/-- The `while (cur)` loop of `predecessor` with its `pred` accumulator. -/
def predGo : Tree → Int → Option Int → Option Int
  | leaf, _, acc => acc
  | node k l r, key, acc =>
    if k < key then predGo r key (some k)
    else if key < k then predGo l key acc
    else
      match rightmostKey l with
      | some m => some m
      | none => acc

/-- `predecessor`. -/
def predecessor (root : Tree) (key : Int) : Option Int :=
  predGo root key none

/-- The `while (cur)` loop of `successor` with its `succ` accumulator. -/
def succGo : Tree → Int → Option Int → Option Int
  | leaf, _, acc => acc
  | node k l r, key, acc =>
    if key < k then succGo l key (some k)
    else if k < key then succGo r key acc
    else
      match leftmostKey r with
      | some m => some m
      | none => acc

/-- `successor`. -/
def successor (root : Tree) (key : Int) : Option Int :=
  succGo root key none

/-- Counts how many times a `deleteNode` call reaches the two-child case. -/
def delTwoChildHits : Tree → Int → Nat
  | leaf, _ => 0
  | node k l r, key =>
    if key < k then delTwoChildHits l key
    else if k < key then delTwoChildHits r key
    else if l = leaf then 0
    else if r = leaf then 0
    else 1 + delTwoChildHits r (minKeyD r)

/-- One mutating menu operation of `main`. -/
inductive Op where
  | ins (k : Int) : Op
  | del (k : Int) : Op
deriving DecidableEq, Repr

/-- Apply one menu operation to the current root. -/
def applyOp (t : Tree) : Op → Tree
  | .ins k => insert_recursive t k
  | .del k => deleteNode t k

/-- Run a sequence of menu operations starting from the empty tree. -/
def runOps (ops : List Op) : Tree :=
  ops.foldl applyOp leaf

/-- The reference model: a finite set of keys, `insert` and `erase`. -/
def modelOp (s : Finset Int) : Op → Finset Int
  | .ins k => insert k s
  | .del k => s.erase k

/-- The key set that a sequence of operations should leave behind: every key
inserted and not subsequently deleted. -/
def runModel (ops : List Op) : Finset Int :=
  ops.foldl modelOp ∅

/-! ### Basic facts about keys and the BST predicate -/

theorem keys_leaf : keys leaf = [] := rfl

theorem keys_node (k : Int) (l r : Tree) :
    keys (node k l r) = keys l ++ k :: keys r := rfl

theorem mem_keys_node {x k : Int} {l r : Tree} :
    x ∈ keys (node k l r) ↔ x ∈ keys l ∨ x = k ∨ x ∈ keys r := by
  simp [keys_node]

theorem isBST_node {k : Int} {l r : Tree} :
    isBST (node k l r) = true ↔
      (∀ x ∈ keys l, x < k) ∧ (∀ x ∈ keys r, k < x) ∧
      isBST l = true ∧ isBST r = true := by
  simp [isBST, List.all_eq_true, Bool.and_eq_true]
  tauto

theorem mem_keys_insert_rec (t : Tree) (k x : Int) :
    x ∈ keys (insert_recursive t k) ↔ x = k ∨ x ∈ keys t := by
  induction t with
  | leaf => simp [insert_recursive, keys, inorder]
  | node key l r ihl ihr =>
    by_cases h1 : k < key
    · simp only [insert_recursive, if_pos h1, mem_keys_node, ihl]
      tauto
    · by_cases h2 : key < k
      · simp only [insert_recursive, if_neg h1, if_pos h2, mem_keys_node, ihr]
        tauto
      · have hk : k = key := le_antisymm (not_lt.1 h2) (not_lt.1 h1)
        subst hk
        simp only [insert_recursive, if_neg h1, if_neg h2, mem_keys_node]
        tauto

theorem isBST_insert_rec {t : Tree} (k : Int) (hb : isBST t = true) :
    isBST (insert_recursive t k) = true := by
  induction t with
  | leaf => simp [insert_recursive, isBST, keys, inorder]
  | node key l r ihl ihr =>
    rw [isBST_node] at hb
    obtain ⟨hbl, hbr, hl, hr⟩ := hb
    by_cases h1 : k < key
    · simp only [insert_recursive, if_pos h1, isBST_node]
      refine ⟨?_, hbr, ihl hl, hr⟩
      intro x hx
      rcases (mem_keys_insert_rec l k x).1 hx with h | h
      · exact h ▸ h1
      · exact hbl x h
    · by_cases h2 : key < k
      · simp only [insert_recursive, if_neg h1, if_pos h2, isBST_node]
        refine ⟨hbl, ?_, hl, ihr hr⟩
        intro x hx
        rcases (mem_keys_insert_rec r k x).1 hx with h | h
        · exact h ▸ h2
        · exact hbr x h
      · simp only [insert_recursive, if_neg h1, if_neg h2, isBST_node]
        exact ⟨hbl, hbr, hl, hr⟩

theorem insert_rec_of_mem {t : Tree} {k : Int} (hb : isBST t = true)
    (hm : k ∈ keys t) : insert_recursive t k = t := by
  induction t with
  | leaf => simp [keys, inorder] at hm
  | node key l r ihl ihr =>
    rw [isBST_node] at hb
    obtain ⟨hbl, hbr, hl, hr⟩ := hb
    rcases mem_keys_node.1 hm with h | h | h
    · have h1 : k < key := hbl k h
      simp [insert_recursive, if_pos h1, ihl hl h]
    · subst h
      simp [insert_recursive]
    · have h2 : key < k := hbr k h
      have h1 : ¬k < key := by omega
      simp [insert_recursive, if_neg h1, if_pos h2, ihr hr h]

/-! ### The iterative insert agrees with the recursive insert -/

theorem descend_none (k : Int) (t : Tree) :
    ∀ path : List Frame, descendPath k t path = none →
      insert_recursive t k = t := by
  induction t with
  | leaf => intro path h; simp [descendPath] at h
  | node key l r ihl ihr =>
    intro path h
    by_cases h1 : k < key
    · simp only [descendPath, if_pos h1] at h
      simp [insert_recursive, if_pos h1, ihl _ h]
    · by_cases h2 : key < k
      · simp only [descendPath, if_neg h1, if_pos h2] at h
        simp [insert_recursive, if_neg h1, if_pos h2, ihr _ h]
      · simp [insert_recursive, if_neg h1, if_neg h2]

theorem descend_some (k : Int) (t : Tree) :
    ∀ (path p : List Frame), descendPath k t path = some p →
      rebuild p (node k leaf leaf) = rebuild path (insert_recursive t k) := by
  induction t with
  | leaf =>
    intro path p h
    simp only [descendPath, Option.some.injEq] at h
    subst h
    rfl
  | node key l r ihl ihr =>
    intro path p h
    by_cases h1 : k < key
    · simp only [descendPath, if_pos h1] at h
      rw [ihl _ _ h]
      simp [insert_recursive, if_pos h1, rebuild]
    · by_cases h2 : key < k
      · simp only [descendPath, if_neg h1, if_pos h2] at h
        rw [ihr _ _ h]
        simp [insert_recursive, if_neg h1, if_pos h2, rebuild]
      · simp [descendPath, if_neg h1, if_neg h2] at h

theorem insert_iterative_eq_rec (t : Tree) (k : Int) :
    insert_iterative t k = insert_recursive t k := by
  cases t with
  | leaf => rfl
  | node key l r =>
    cases hd : descendPath k (node key l r) [] with
    | none =>
      have h := descend_none k (node key l r) [] hd
      simp [insert_iterative, hd, h]
    | some path =>
      have h := descend_some k (node key l r) [] path hd
      simp only [rebuild] at h
      simp [insert_iterative, hd, h]

/-! ### The inorder sequence of a BST is strictly sorted -/

theorem sorted_keys_of_isBST {t : Tree} (hb : isBST t = true) :
    (keys t).Sorted (fun a b : Int => a < b) := by
  induction t with
  | leaf => simp [keys, inorder]
  | node key l r ihl ihr =>
    rw [isBST_node] at hb
    obtain ⟨hbl, hbr, hl, hr⟩ := hb
    rw [keys_node]
    refine List.pairwise_append.2 ⟨ihl hl, ?_, ?_⟩
    · exact List.pairwise_cons.2 ⟨fun b hb2 => hbr b hb2, ihr hr⟩
    · intro x hx y hy
      rcases List.mem_cons.1 hy with rfl | hy
      · exact hbl x hx
      · exact lt_trans (hbl x hx) (hbr y hy)

theorem nodup_keys_of_isBST {t : Tree} (hb : isBST t = true) :
    (keys t).Nodup :=
  (sorted_keys_of_isBST hb).nodup

/-! ### The minimum node and deletion -/

theorem minValueNode_shape (t : Tree) (h : t ≠ leaf) :
    ∃ m r2, minValueNode t = node m leaf r2 := by
  induction t with
  | leaf => exact absurd rfl h
  | node k l r ihl ihr =>
    cases l with
    | leaf => exact ⟨k, r, rfl⟩
    | node k2 l2 r2 =>
      obtain ⟨m, rr, hm⟩ := ihl (by simp)
      exact ⟨m, rr, by simp [minValueNode, hm]⟩

theorem minKeyD_mem (t : Tree) (h : t ≠ leaf) : minKeyD t ∈ keys t := by
  induction t with
  | leaf => exact absurd rfl h
  | node k l r ihl ihr =>
    cases l with
    | leaf => simp [minKeyD, minValueNode, mem_keys_node]
    | node k2 l2 r2 =>
      have : minKeyD (node k (node k2 l2 r2) r) = minKeyD (node k2 l2 r2) := by
        simp [minKeyD, minValueNode]
      rw [this]
      exact mem_keys_node.2 (Or.inl (ihl (by simp)))

theorem minKeyD_le (t : Tree) (hb : isBST t = true) :
    ∀ x ∈ keys t, minKeyD t ≤ x := by
  induction t with
  | leaf => simp [keys, inorder]
  | node k l r ihl ihr =>
    rw [isBST_node] at hb
    obtain ⟨hbl, hbr, hl, hr⟩ := hb
    intro x hx
    cases l with
    | leaf =>
      have hk : minKeyD (node k leaf r) = k := by simp [minKeyD, minValueNode]
      rw [hk]
      rcases mem_keys_node.1 hx with h | h | h
      · simp [keys, inorder] at h
      · omega
      · exact le_of_lt (hbr x h)
    | node k2 l2 r2 =>
      have hm : minKeyD (node k (node k2 l2 r2) r) = minKeyD (node k2 l2 r2) := by
        simp [minKeyD, minValueNode]
      rw [hm]
      have hmem : minKeyD (node k2 l2 r2) ∈ keys (node k2 l2 r2) :=
        minKeyD_mem _ (by simp)
      have hmk : minKeyD (node k2 l2 r2) < k := hbl _ hmem
      rcases mem_keys_node.1 hx with h | h | h
      · exact ihl hl x h
      · omega
      · exact le_of_lt (lt_trans hmk (hbr x h))

theorem deleteNode_not_mem (t : Tree) : ∀ k : Int, k ∉ keys t →
    deleteNode t k = t := by
  induction t with
  | leaf => intro k _; rfl
  | node key l r ihl ihr =>
    intro k hk
    by_cases h1 : k < key
    · have : k ∉ keys l := fun h => hk (mem_keys_node.2 (Or.inl h))
      simp [deleteNode, if_pos h1, ihl k this]
    · by_cases h2 : key < k
      · have : k ∉ keys r := fun h => hk (mem_keys_node.2 (Or.inr (Or.inr h)))
        simp [deleteNode, if_neg h1, if_pos h2, ihr k this]
      · have : k = key := by omega
        exact absurd (mem_keys_node.2 (Or.inr (Or.inl this))) hk

theorem mem_keys_deleteNode (t : Tree) : ∀ k x : Int, isBST t = true →
    (x ∈ keys (deleteNode t k) ↔ x ∈ keys t ∧ x ≠ k) := by
  induction t with
  | leaf => intro k x _; simp [deleteNode, keys, inorder]
  | node key l r ihl ihr =>
    intro k x hb
    rw [isBST_node] at hb
    obtain ⟨hbl, hbr, hl, hr⟩ := hb
    by_cases h1 : k < key
    · rw [show deleteNode (node key l r) k = node key (deleteNode l k) r from by
        simp [deleteNode, if_pos h1]]
      rw [mem_keys_node, ihl k x hl, mem_keys_node]
      constructor
      · rintro (⟨h, hne⟩ | rfl | h)
        · exact ⟨Or.inl h, hne⟩
        · exact ⟨Or.inr (Or.inl rfl), by omega⟩
        · exact ⟨Or.inr (Or.inr h), by have := hbr x h; omega⟩
      · rintro ⟨h | h | h, hne⟩
        · exact Or.inl ⟨h, hne⟩
        · exact Or.inr (Or.inl h)
        · exact Or.inr (Or.inr h)
    · by_cases h2 : key < k
      · rw [show deleteNode (node key l r) k = node key l (deleteNode r k) from by
          simp [deleteNode, if_neg h1, if_pos h2]]
        rw [mem_keys_node, mem_keys_node, ihr k x hr]
        constructor
        · rintro (h | rfl | ⟨h, hne⟩)
          · exact ⟨Or.inl h, by have := hbl x h; omega⟩
          · exact ⟨Or.inr (Or.inl rfl), by omega⟩
          · exact ⟨Or.inr (Or.inr h), hne⟩
        · rintro ⟨h | h | h, hne⟩
          · exact Or.inl h
          · exact Or.inr (Or.inl h)
          · exact Or.inr (Or.inr ⟨h, hne⟩)
      · have hkey : k = key := by omega
        subst hkey
        cases hleaf : l with
        | leaf =>
          rw [show deleteNode (node k leaf r) k = r from by simp [deleteNode]]
          rw [mem_keys_node]
          subst hleaf
          constructor
          · intro h
            exact ⟨Or.inr (Or.inr h), by have := hbr x h; omega⟩
          · rintro ⟨h | h | h, hne⟩
            · simp [keys, inorder] at h
            · omega
            · exact h
        | node kl ll rl =>
          subst hleaf
          cases hrleaf : r with
          | leaf =>
            subst hrleaf
            rw [show deleteNode (node k (node kl ll rl) leaf) k = node kl ll rl from by
              simp [deleteNode]]
            constructor
            · intro h
              have := hbl x h
              exact ⟨mem_keys_node.2 (Or.inl h), by omega⟩
            · rintro ⟨hmem, hne⟩
              rcases mem_keys_node.1 hmem with h | h | h
              · exact h
              · exact absurd h hne
              · simp [keys, inorder] at h
          | node kr lr rr =>
            subst hrleaf
            set L := node kl ll rl with hL
            set R := node kr lr rr with hR
            have hdel : deleteNode (node k L R) k =
                node (minKeyD R) L (deleteNode R (minKeyD R)) := by
              simp [deleteNode, hL, hR]
            rw [hdel]
            have hmm : minKeyD R ∈ keys R := minKeyD_mem R (by simp [hR])
            have hkm : k < minKeyD R := hbr _ hmm
            constructor
            · intro h
              rcases mem_keys_node.1 h with h | h | h
              · have := hbl x h
                exact ⟨mem_keys_node.2 (Or.inl h), by omega⟩
              · subst h
                exact ⟨mem_keys_node.2 (Or.inr (Or.inr hmm)), by omega⟩
              · obtain ⟨hxr, _⟩ := (ihr (minKeyD R) x hr).1 h
                have := hbr x hxr
                exact ⟨mem_keys_node.2 (Or.inr (Or.inr hxr)), by omega⟩
            · rintro ⟨hmem, hne⟩
              rcases mem_keys_node.1 hmem with h | h | h
              · exact mem_keys_node.2 (Or.inl h)
              · exact absurd h hne
              · by_cases hm : x = minKeyD R
                · exact mem_keys_node.2 (Or.inr (Or.inl hm))
                · exact mem_keys_node.2
                    (Or.inr (Or.inr ((ihr (minKeyD R) x hr).2 ⟨h, hm⟩)))

theorem isBST_deleteNode (t : Tree) : ∀ k : Int, isBST t = true →
    isBST (deleteNode t k) = true := by
  induction t with
  | leaf => intro k _; simp [deleteNode, isBST]
  | node key l r ihl ihr =>
    intro k hb
    rw [isBST_node] at hb
    obtain ⟨hbl, hbr, hl, hr⟩ := hb
    by_cases h1 : k < key
    · rw [show deleteNode (node key l r) k = node key (deleteNode l k) r from by
        simp [deleteNode, if_pos h1]]
      rw [isBST_node]
      refine ⟨?_, hbr, ihl k hl, hr⟩
      intro x hx
      exact hbl x ((mem_keys_deleteNode l k x hl).1 hx).1
    · by_cases h2 : key < k
      · rw [show deleteNode (node key l r) k = node key l (deleteNode r k) from by
          simp [deleteNode, if_neg h1, if_pos h2]]
        rw [isBST_node]
        refine ⟨hbl, ?_, hl, ihr k hr⟩
        intro x hx
        exact hbr x ((mem_keys_deleteNode r k x hr).1 hx).1
      · have hkey : k = key := by omega
        subst hkey
        cases hleaf : l with
        | leaf =>
          rw [show deleteNode (node k leaf r) k = r from by simp [deleteNode]]
          exact hr
        | node kl ll rl =>
          subst hleaf
          cases hrleaf : r with
          | leaf =>
            rw [show deleteNode (node k (node kl ll rl) leaf) k = node kl ll rl from by
              simp [deleteNode]]
            exact hl
          | node kr lr rr =>
            subst hrleaf
            set L := node kl ll rl with hL
            set R := node kr lr rr with hR
            have hdel : deleteNode (node k L R) k =
                node (minKeyD R) L (deleteNode R (minKeyD R)) := by
              simp [deleteNode, hL, hR]
            rw [hdel, isBST_node]
            have hmm : minKeyD R ∈ keys R := minKeyD_mem R (by simp [hR])
            have hkm : k < minKeyD R := hbr _ hmm
            refine ⟨?_, ?_, hl, ihr (minKeyD R) hr⟩
            · intro x hx
              have := hbl x hx
              omega
            · intro x hx
              obtain ⟨hxr, hne⟩ := (mem_keys_deleteNode R (minKeyD R) x hr).1 hx
              have := minKeyD_le R hr x hxr
              omega

/-! ### Rightmost/leftmost keys and the neighbor-query walks -/

theorem maxValueNode_shape (t : Tree) (h : t ≠ leaf) :
    ∃ m l2, maxValueNode t = node m l2 leaf := by
  induction t with
  | leaf => exact absurd rfl h
  | node k l r ihl ihr =>
    cases r with
    | leaf => exact ⟨k, l, rfl⟩
    | node k2 l2 r2 =>
      obtain ⟨m, ll, hm⟩ := ihr (by simp)
      exact ⟨m, ll, by simp [maxValueNode, hm]⟩

theorem rightmostKey_none {t : Tree} (h : rightmostKey t = none) : t = leaf := by
  cases t with
  | leaf => rfl
  | node k l r =>
    obtain ⟨m, l2, hm⟩ := maxValueNode_shape (node k l r) (by simp)
    simp [rightmostKey, hm] at h

theorem leftmostKey_none {t : Tree} (h : leftmostKey t = none) : t = leaf := by
  cases t with
  | leaf => rfl
  | node k l r =>
    obtain ⟨m, r2, hm⟩ := minValueNode_shape (node k l r) (by simp)
    simp [leftmostKey, hm] at h

theorem rightmostKey_spec (t : Tree) : ∀ m : Int, isBST t = true →
    rightmostKey t = some m → m ∈ keys t ∧ ∀ x ∈ keys t, x ≤ m := by
  induction t with
  | leaf => intro m _ hm; simp [rightmostKey, maxValueNode] at hm
  | node k l r ihl ihr =>
    intro m hb hm
    rw [isBST_node] at hb
    obtain ⟨hbl, hbr, hl, hr⟩ := hb
    cases r with
    | leaf =>
      have hmk : m = k := by
        simp [rightmostKey, maxValueNode] at hm
        omega
      subst hmk
      refine ⟨mem_keys_node.2 (Or.inr (Or.inl rfl)), ?_⟩
      intro x hx
      rcases mem_keys_node.1 hx with h | h | h
      · exact le_of_lt (hbl x h)
      · omega
      · simp [keys, inorder] at h
    | node kr lr rr =>
      have hstep : rightmostKey (node k l (node kr lr rr)) =
          rightmostKey (node kr lr rr) := by
        simp [rightmostKey, maxValueNode]
      rw [hstep] at hm
      obtain ⟨hmem, hmax⟩ := ihr m hr hm
      have hkm : k < m := hbr m hmem
      refine ⟨mem_keys_node.2 (Or.inr (Or.inr hmem)), ?_⟩
      intro x hx
      rcases mem_keys_node.1 hx with h | h | h
      · exact le_of_lt (lt_trans (hbl x h) hkm)
      · omega
      · exact hmax x h

theorem leftmostKey_spec (t : Tree) (m : Int) (hb : isBST t = true)
    (hm : leftmostKey t = some m) : m ∈ keys t ∧ ∀ x ∈ keys t, m ≤ x := by
  have ht : t ≠ leaf := by
    intro h
    subst h
    simp [leftmostKey, minValueNode] at hm
  have hmk : minKeyD t = m := by
    unfold leftmostKey at hm
    unfold minKeyD
    cases h : minValueNode t with
    | leaf => simp [h] at hm
    | node k2 l2 r2 => simp [h] at hm ⊢; omega
  subst hmk
  exact ⟨minKeyD_mem t ht, minKeyD_le t hb⟩

theorem predGo_spec (t : Tree) : ∀ (key : Int) (acc : Option Int),
    isBST t = true →
    (∀ a, acc = some a → a < key ∧ ∀ x ∈ keys t, a < x) →
    ((predGo t key acc = none → acc = none ∧ ∀ x ∈ keys t, ¬x < key) ∧
     (∀ p, predGo t key acc = some p →
        ((p ∈ keys t ∧ p < key) ∨ acc = some p) ∧
        (∀ x ∈ keys t, x < key → x ≤ p) ∧
        (∀ a, acc = some a → a ≤ p))) := by
  induction t with
  | leaf =>
    intro key acc _ _
    constructor
    · intro h
      exact ⟨h, by simp [keys, inorder]⟩
    · intro p hp
      refine ⟨Or.inr hp, by simp [keys, inorder], ?_⟩
      intro a ha
      rw [ha] at hp
      simp [predGo] at hp
      omega
  | node k l r ihl ihr =>
    intro key acc hb hacc
    rw [isBST_node] at hb
    obtain ⟨hbl, hbr, hl, hr⟩ := hb
    by_cases h1 : k < key
    · have hstep : predGo (node k l r) key acc = predGo r key (some k) := by
        simp [predGo, if_pos h1]
      have hacc2 : ∀ a, (some k : Option Int) = some a →
          a < key ∧ ∀ x ∈ keys r, a < x := by
        intro a ha
        have : a = k := by simpa using ha.symm
        subst this
        exact ⟨h1, fun x hx => hbr x hx⟩
      have IH := ihr key (some k) hr hacc2
      rw [hstep]
      constructor
      · intro h
        obtain ⟨habs, _⟩ := IH.1 h
        simp at habs
      · intro p hp
        obtain ⟨hor, hbound, hle⟩ := IH.2 p hp
        have hkp : k ≤ p := hle k rfl
        refine ⟨?_, ?_, ?_⟩
        · rcases hor with ⟨hm, hlt⟩ | heq
          · exact Or.inl ⟨mem_keys_node.2 (Or.inr (Or.inr hm)), hlt⟩
          · have : p = k := by simpa using heq.symm
            subst this
            exact Or.inl ⟨mem_keys_node.2 (Or.inr (Or.inl rfl)), h1⟩
        · intro x hx hxk
          rcases mem_keys_node.1 hx with h | h | h
          · have := hbl x h; omega
          · omega
          · exact hbound x h hxk
        · intro a ha
          have := (hacc a ha).2 k (mem_keys_node.2 (Or.inr (Or.inl rfl)))
          omega
    · by_cases h2 : key < k
      · have hstep : predGo (node k l r) key acc = predGo l key acc := by
          simp [predGo, if_neg h1, if_pos h2]
        have hacc2 : ∀ a, acc = some a → a < key ∧ ∀ x ∈ keys l, a < x := by
          intro a ha
          obtain ⟨h3, h4⟩ := hacc a ha
          exact ⟨h3, fun x hx => h4 x (mem_keys_node.2 (Or.inl hx))⟩
        have IH := ihl key acc hl hacc2
        rw [hstep]
        constructor
        · intro h
          obtain ⟨hnone, hno⟩ := IH.1 h
          refine ⟨hnone, ?_⟩
          intro x hx
          rcases mem_keys_node.1 hx with h | h | h
          · exact hno x h
          · omega
          · have := hbr x h; omega
        · intro p hp
          obtain ⟨hor, hbound, hle⟩ := IH.2 p hp
          refine ⟨?_, ?_, hle⟩
          · rcases hor with ⟨hm, hlt⟩ | heq
            · exact Or.inl ⟨mem_keys_node.2 (Or.inl hm), hlt⟩
            · exact Or.inr heq
          · intro x hx hxk
            rcases mem_keys_node.1 hx with h | h | h
            · exact hbound x h hxk
            · omega
            · have := hbr x h; omega
      · have hkey : k = key := by omega
        subst hkey
        cases hrm : rightmostKey l with
        | some m =>
          have hstep : predGo (node k l r) k acc = some m := by
            simp [predGo, if_neg h1, if_neg h2, hrm]
          obtain ⟨hmem, hmax⟩ := rightmostKey_spec l m hl hrm
          rw [hstep]
          constructor
          · intro h; simp at h
          · intro p hp
            have hpm : p = m := by simpa using hp.symm
            rw [hpm]
            refine ⟨Or.inl ⟨mem_keys_node.2 (Or.inl hmem), hbl m hmem⟩, ?_, ?_⟩
            · intro x hx hxk
              rcases mem_keys_node.1 hx with h | h | h
              · exact hmax x h
              · omega
              · have := hbr x h; omega
            · intro a ha
              have := (hacc a ha).2 m (mem_keys_node.2 (Or.inl hmem))
              omega
        | none =>
          have hleaf : l = leaf := rightmostKey_none hrm
          subst hleaf
          have hstep : predGo (node k leaf r) k acc = acc := by
            simp [predGo, if_neg h1, if_neg h2, rightmostKey, maxValueNode]
          rw [hstep]
          have hno : ∀ x ∈ keys (node k leaf r), ¬x < k := by
            intro x hx
            rcases mem_keys_node.1 hx with h | h | h
            · simp [keys, inorder] at h
            · omega
            · have := hbr x h; omega
          constructor
          · intro h
            exact ⟨h, hno⟩
          · intro p hp
            refine ⟨Or.inr hp, fun x hx hxk => absurd hxk (hno x hx), ?_⟩
            intro a ha
            rw [ha] at hp
            have : a = p := by simpa using hp
            omega

theorem succGo_spec (t : Tree) : ∀ (key : Int) (acc : Option Int),
    isBST t = true →
    (∀ a, acc = some a → key < a ∧ ∀ x ∈ keys t, x < a) →
    ((succGo t key acc = none → acc = none ∧ ∀ x ∈ keys t, ¬key < x) ∧
     (∀ p, succGo t key acc = some p →
        ((p ∈ keys t ∧ key < p) ∨ acc = some p) ∧
        (∀ x ∈ keys t, key < x → p ≤ x) ∧
        (∀ a, acc = some a → p ≤ a))) := by
  induction t with
  | leaf =>
    intro key acc _ _
    constructor
    · intro h
      exact ⟨h, by simp [keys, inorder]⟩
    · intro p hp
      refine ⟨Or.inr hp, by simp [keys, inorder], ?_⟩
      intro a ha
      rw [ha] at hp
      simp [succGo] at hp
      omega
  | node k l r ihl ihr =>
    intro key acc hb hacc
    rw [isBST_node] at hb
    obtain ⟨hbl, hbr, hl, hr⟩ := hb
    by_cases h1 : key < k
    · have hstep : succGo (node k l r) key acc = succGo l key (some k) := by
        simp [succGo, if_pos h1]
      have hacc2 : ∀ a, (some k : Option Int) = some a →
          key < a ∧ ∀ x ∈ keys l, x < a := by
        intro a ha
        have : a = k := by simpa using ha.symm
        subst this
        exact ⟨h1, fun x hx => hbl x hx⟩
      have IH := ihl key (some k) hl hacc2
      rw [hstep]
      constructor
      · intro h
        obtain ⟨habs, _⟩ := IH.1 h
        simp at habs
      · intro p hp
        obtain ⟨hor, hbound, hle⟩ := IH.2 p hp
        have hkp : p ≤ k := hle k rfl
        refine ⟨?_, ?_, ?_⟩
        · rcases hor with ⟨hm, hlt⟩ | heq
          · exact Or.inl ⟨mem_keys_node.2 (Or.inl hm), hlt⟩
          · have : p = k := by simpa using heq.symm
            subst this
            exact Or.inl ⟨mem_keys_node.2 (Or.inr (Or.inl rfl)), h1⟩
        · intro x hx hxk
          rcases mem_keys_node.1 hx with h | h | h
          · exact hbound x h hxk
          · omega
          · have := hbr x h; omega
        · intro a ha
          have := (hacc a ha).2 k (mem_keys_node.2 (Or.inr (Or.inl rfl)))
          omega
    · by_cases h2 : k < key
      · have hstep : succGo (node k l r) key acc = succGo r key acc := by
          simp [succGo, if_neg h1, if_pos h2]
        have hacc2 : ∀ a, acc = some a → key < a ∧ ∀ x ∈ keys r, x < a := by
          intro a ha
          obtain ⟨h3, h4⟩ := hacc a ha
          exact ⟨h3, fun x hx => h4 x (mem_keys_node.2 (Or.inr (Or.inr hx)))⟩
        have IH := ihr key acc hr hacc2
        rw [hstep]
        constructor
        · intro h
          obtain ⟨hnone, hno⟩ := IH.1 h
          refine ⟨hnone, ?_⟩
          intro x hx
          rcases mem_keys_node.1 hx with h | h | h
          · have := hbl x h; omega
          · omega
          · exact hno x h
        · intro p hp
          obtain ⟨hor, hbound, hle⟩ := IH.2 p hp
          refine ⟨?_, ?_, hle⟩
          · rcases hor with ⟨hm, hlt⟩ | heq
            · exact Or.inl ⟨mem_keys_node.2 (Or.inr (Or.inr hm)), hlt⟩
            · exact Or.inr heq
          · intro x hx hxk
            rcases mem_keys_node.1 hx with h | h | h
            · have := hbl x h; omega
            · omega
            · exact hbound x h hxk
      · have hkey : k = key := by omega
        subst hkey
        cases hlm : leftmostKey r with
        | some m =>
          have hstep : succGo (node k l r) k acc = some m := by
            simp [succGo, if_neg h1, if_neg h2, hlm]
          obtain ⟨hmem, hmin⟩ := leftmostKey_spec r m hr hlm
          rw [hstep]
          constructor
          · intro h; simp at h
          · intro p hp
            have hpm : p = m := by simpa using hp.symm
            rw [hpm]
            refine ⟨Or.inl ⟨mem_keys_node.2 (Or.inr (Or.inr hmem)), hbr m hmem⟩,
              ?_, ?_⟩
            · intro x hx hxk
              rcases mem_keys_node.1 hx with h | h | h
              · have := hbl x h; omega
              · omega
              · exact hmin x h
            · intro a ha
              have := (hacc a ha).2 m (mem_keys_node.2 (Or.inr (Or.inr hmem)))
              omega
        | none =>
          have hleaf : r = leaf := leftmostKey_none hlm
          subst hleaf
          have hstep : succGo (node k l leaf) k acc = acc := by
            simp [succGo, if_neg h1, if_neg h2, leftmostKey, minValueNode]
          rw [hstep]
          have hno : ∀ x ∈ keys (node k l leaf), ¬k < x := by
            intro x hx
            rcases mem_keys_node.1 hx with h | h | h
            · have := hbl x h; omega
            · omega
            · simp [keys, inorder] at h
          constructor
          · intro h
            exact ⟨h, hno⟩
          · intro p hp
            refine ⟨Or.inr hp, fun x hx hxk => absurd hxk (hno x hx), ?_⟩
            intro a ha
            rw [ha] at hp
            have : a = p := by simpa using hp
            omega

/-! ### Decimal printing and `atoi` round trip -/

theorem digitChar_isDigit : ∀ d < 10, (digitChar d).isDigit = true := by decide

theorem digitChar_toNat : ∀ d < 10, (digitChar d).toNat = 48 + d := by decide

theorem digitChar_not_space : ∀ d < 10, isSpaceC (digitChar d) = false := by decide

theorem digitChar_ne : ∀ d < 10,
    digitChar d ≠ '-' ∧ digitChar d ≠ '+' ∧ digitChar d ≠ '#' := by decide

theorem natDigits_unfold (n : Nat) : natDigits n =
    if n < 10 then [digitChar n]
    else natDigits (n / 10) ++ [digitChar (n % 10)] := by
  rw [natDigits]
  by_cases h : n < 10 <;> simp [h]

theorem natDigits_ne_nil (n : Nat) : natDigits n ≠ [] := by
  rw [natDigits_unfold]
  split <;> simp

theorem natDigits_all_digit (n : Nat) : ∀ c ∈ natDigits n, c.isDigit = true := by
  induction n using Nat.strong_induction_on with
  | _ n ih =>
    by_cases h : n < 10
    · rw [natDigits_unfold, if_pos h]
      intro c hc
      simp only [List.mem_singleton] at hc
      subst hc
      exact digitChar_isDigit n h
    · rw [natDigits_unfold, if_neg h]
      intro c hc
      rcases List.mem_append.1 hc with hc | hc
      · exact ih (n / 10) (Nat.div_lt_self (by omega) (by omega)) c hc
      · simp only [List.mem_singleton] at hc
        subst hc
        exact digitChar_isDigit (n % 10) (Nat.mod_lt _ (by omega))

theorem digitsVal_append (xs : List Char) (h : ∀ c ∈ xs, c.isDigit = true) :
    ∀ (ys : List Char) (acc : Nat),
      digitsVal (xs ++ ys) acc = digitsVal ys (digitsVal xs acc) := by
  induction xs with
  | nil => intro ys acc; rfl
  | cons c cs ih =>
    intro ys acc
    have hc : c.isDigit = true := h c (List.mem_cons_self c cs)
    rw [List.cons_append]
    rw [show digitsVal (c :: (cs ++ ys)) acc =
        digitsVal (cs ++ ys) (acc * 10 + (c.toNat - 48)) from by
      simp [digitsVal, hc]]
    rw [show digitsVal (c :: cs) acc =
        digitsVal cs (acc * 10 + (c.toNat - 48)) from by
      simp [digitsVal, hc]]
    exact ih (fun c2 hc2 => h c2 (List.mem_cons_of_mem c hc2)) ys _

theorem digitsVal_natDigits (n : Nat) : ∀ acc : Nat,
    digitsVal (natDigits n) acc = acc * 10 ^ (natDigits n).length + n := by
  induction n using Nat.strong_induction_on with
  | _ n ih =>
    intro acc
    by_cases h : n < 10
    · rw [natDigits_unfold, if_pos h]
      have hd := digitChar_isDigit n h
      have ht := digitChar_toNat n h
      simp [digitsVal, hd, ht]
    · rw [natDigits_unfold, if_neg h]
      have hrec : n / 10 < n := Nat.div_lt_self (by omega) (by omega)
      rw [digitsVal_append _ (natDigits_all_digit (n / 10))]
      have hd := digitChar_isDigit (n % 10) (Nat.mod_lt _ (by omega))
      have ht := digitChar_toNat (n % 10) (Nat.mod_lt _ (by omega))
      rw [ih (n / 10) hrec acc]
      simp only [List.length_append, List.length_cons, List.length_nil, digitsVal, hd, ht,
        if_pos]
      rw [pow_succ, ← mul_assoc]
      generalize acc * 10 ^ (natDigits (n / 10)).length = A
      omega

theorem char_isDigit_facts (c : Char) (h : c.isDigit = true) :
    isSpaceC c = false ∧ c ≠ '-' ∧ c ≠ '+' ∧ c ≠ '#' := by
  have hval : 48 ≤ c.toNat ∧ c.toNat ≤ 57 := by
    simp only [Char.isDigit, Bool.and_eq_true, decide_eq_true_eq] at h
    exact ⟨h.1, h.2⟩
  refine ⟨?_, ?_, ?_, ?_⟩
  · cases hs : isSpaceC c
    · rfl
    · exfalso
      simp only [isSpaceC, Bool.or_eq_true, decide_eq_true_eq] at hs
      rcases hs with ((((h1 | h1) | h1) | h1) | h1) | h1 <;>
        (subst h1; revert hval; decide)
  · intro h1; subst h1; revert hval; decide
  · intro h1; subst h1; revert hval; decide
  · intro h1; subst h1; revert hval; decide

theorem skipSpaces_cons (c : Char) (cs : List Char) (h : isSpaceC c = false) :
    skipSpaces (c :: cs) = c :: cs := by
  simp [skipSpaces, h]

theorem natDigits_head (n : Nat) : ∃ c cs, natDigits n = c :: cs ∧ c.isDigit = true := by
  cases h : natDigits n with
  | nil => exact absurd h (natDigits_ne_nil n)
  | cons c cs =>
    refine ⟨c, cs, rfl, ?_⟩
    have := natDigits_all_digit n c
    rw [h] at this
    exact this (List.mem_cons_self c cs)

theorem atoi_cons (c : Char) (cs : List Char) (h : isSpaceC c = false) :
    atoi (String.mk (c :: cs)) =
      if c = '-' then -(digitsVal cs 0 : Int)
      else if c = '+' then (digitsVal cs 0 : Int)
      else (digitsVal (c :: cs) 0 : Int) := by
  rw [atoi]
  rw [show skipSpaces (String.mk (c :: cs)).data = c :: cs from
    skipSpaces_cons c cs h]

theorem atoi_nat (n : Nat) : atoi (String.mk (natDigits n)) = (n : Int) := by
  obtain ⟨c, cs, hcons, hdig⟩ := natDigits_head n
  obtain ⟨hsp, hminus, hplus, _⟩ := char_isDigit_facts c hdig
  rw [hcons, atoi_cons c cs hsp]
  rw [if_neg hminus, if_neg hplus]
  rw [← hcons, digitsVal_natDigits n 0]
  simp

theorem atoi_intTok (k : Int) : atoi (intTok k) = k := by
  by_cases hk : k < 0
  · rw [show intTok k = String.mk ('-' :: natDigits k.natAbs) from by
      simp [intTok, intChars, if_pos hk]]
    rw [atoi_cons _ _ (by decide), if_pos rfl, digitsVal_natDigits k.natAbs 0]
    omega
  · rw [show intTok k = String.mk (natDigits k.toNat) from by
      simp [intTok, intChars, if_neg hk]]
    rw [atoi_nat]
    omega

theorem intTok_ne_hashTok (k : Int) : intTok k ≠ hashTok := by
  intro h
  have hchars : intChars k = ['#'] := by
    have := congrArg String.data h
    simpa [intTok, hashTok] using this
  by_cases hk : k < 0
  · rw [intChars, if_pos hk] at hchars
    have : '-' = '#' := by simpa using congrArg (fun l => l.headD ' ') hchars
    exact absurd this (by decide)
  · rw [intChars, if_neg hk] at hchars
    obtain ⟨c, cs, hcons, hdig⟩ := natDigits_head k.toNat
    rw [hcons] at hchars
    have hc : c = '#' := by simpa using congrArg (fun l => l.headD ' ') hchars
    subst hc
    obtain ⟨_, _, _, habs⟩ := char_isDigit_facts '#' hdig
    exact habs rfl

/-! ### Equations for `load_tree_preorder` and the structural round trip -/

theorem load_nil : load_tree_preorder [] = (leaf, []) := by
  unfold load_tree_preorder
  rw [loadP]

theorem load_hash (rest : List String) :
    load_tree_preorder (hashTok :: rest) = (leaf, rest) := by
  unfold load_tree_preorder
  rw [loadP]
  simp

theorem load_cons (s : String) (rest : List String) (h : s ≠ hashTok) :
    load_tree_preorder (s :: rest) =
      (node (atoi s) (load_tree_preorder rest).1
        (load_tree_preorder (load_tree_preorder rest).2).1,
       (load_tree_preorder (load_tree_preorder rest).2).2) := by
  unfold load_tree_preorder
  rw [loadP]
  rw [if_neg h]

theorem load_save (t : Tree) : ∀ rest : List String,
    load_tree_preorder (save_tree_preorder t ++ rest) = (t, rest) := by
  induction t with
  | leaf =>
    intro rest
    rw [show save_tree_preorder leaf ++ rest = hashTok :: rest from rfl]
    exact load_hash rest
  | node k l r ihl ihr =>
    intro rest
    rw [show save_tree_preorder (node k l r) ++ rest =
        intTok k :: (save_tree_preorder l ++ (save_tree_preorder r ++ rest)) from by
      simp [save_tree_preorder]]
    rw [load_cons _ _ (intTok_ne_hashTok k)]
    simp [ihl, ihr, atoi_intTok]

/-! ### Deleting the minimum never re-enters the two-child case -/

theorem delTwoChildHits_min (t : Tree) : isBST t = true → t ≠ leaf →
    delTwoChildHits t (minKeyD t) = 0 := by
  induction t with
  | leaf => intro _ h; exact absurd rfl h
  | node k l r ihl ihr =>
    intro hb _
    rw [isBST_node] at hb
    obtain ⟨hbl, hbr, hl, hr⟩ := hb
    cases l with
    | leaf =>
      have hmk : minKeyD (node k leaf r) = k := by
        simp [minKeyD, minValueNode]
      rw [hmk]
      simp [delTwoChildHits]
    | node kl ll rl =>
      have hmk : minKeyD (node k (node kl ll rl) r) = minKeyD (node kl ll rl) := by
        simp [minKeyD, minValueNode]
      rw [hmk]
      have hmem : minKeyD (node kl ll rl) ∈ keys (node kl ll rl) :=
        minKeyD_mem _ (by simp)
      have hlt : minKeyD (node kl ll rl) < k := hbl _ hmem
      rw [show delTwoChildHits (node k (node kl ll rl) r) (minKeyD (node kl ll rl)) =
          delTwoChildHits (node kl ll rl) (minKeyD (node kl ll rl)) from by
        simp [delTwoChildHits, if_pos hlt]]
      exact ihl hl (by simp)

/-! ### Operation sequences against the finite-set model -/

theorem runOps_spec (ops : List Op) : ∀ (t : Tree) (s : Finset Int),
    isBST t = true → (∀ x, x ∈ keys t ↔ x ∈ s) →
    isBST (List.foldl applyOp t ops) = true ∧
    (∀ x, x ∈ keys (List.foldl applyOp t ops) ↔ x ∈ List.foldl modelOp s ops) := by
  induction ops with
  | nil =>
    intro t s hb hs
    exact ⟨hb, hs⟩
  | cons op ops ih =>
    intro t s hb hs
    rw [List.foldl_cons, List.foldl_cons]
    cases op with
    | ins k =>
      apply ih
      · exact isBST_insert_rec k hb
      · intro x
        rw [show applyOp t (Op.ins k) = insert_recursive t k from rfl]
        rw [mem_keys_insert_rec]
        rw [show modelOp s (Op.ins k) = insert k s from rfl]
        rw [Finset.mem_insert, hs x]
    | del k =>
      apply ih
      · exact isBST_deleteNode t k hb
      · intro x
        rw [show applyOp t (Op.del k) = deleteNode t k from rfl]
        rw [mem_keys_deleteNode t k x hb]
        rw [show modelOp s (Op.del k) = s.erase k from rfl]
        rw [Finset.mem_erase, hs x]
        tauto

/-! ### Concrete evaluation of the stream checker and loader -/

theorem checkTree_nil : checkTree [] = none := by
  rw [checkTree]

theorem wellFormed_single_digit_false :
    wellFormedStream [String.mk ['5']] = false := by
  rw [wellFormedStream, checkTree]
  rw [if_neg (by decide), if_pos (by decide)]
  rw [checkTree_nil]
  rfl

theorem loadOverwrite_single5 (oldRoot : Tree) :
    loadOverwrite oldRoot [String.mk ['5']] = node 5 leaf leaf := by
  show (load_tree_preorder [String.mk ['5']]).1 = node 5 leaf leaf
  rw [load_cons _ _ (by decide)]
  simp [load_nil]
  decide

/-! ### The claims -/

/-- C1: for every tree satisfying the BST property and every key, the trees
returned by `insert_recursive`, `insert_iterative` and `deleteNode` satisfy
the BST property (left-subtree keys strictly below, right-subtree keys
strictly above, at every node), and hold no duplicate keys. -/
theorem claim1_bst_preserved (t : Tree) (k : Int) (hb : isBST t = true) :
    isBST (insert_recursive t k) = true ∧
    isBST (insert_iterative t k) = true ∧
    isBST (deleteNode t k) = true ∧
    (keys (insert_recursive t k)).Nodup ∧
    (keys (insert_iterative t k)).Nodup ∧
    (keys (deleteNode t k)).Nodup := by
  have h1 := isBST_insert_rec k hb
  have h2 : isBST (insert_iterative t k) = true := by
    rw [insert_iterative_eq_rec]
    exact h1
  have h3 := isBST_deleteNode t k hb
  exact ⟨h1, h2, h3, nodup_keys_of_isBST h1, nodup_keys_of_isBST h2,
    nodup_keys_of_isBST h3⟩

/-- Witness for C1 at the BST `node 2 (node 1 leaf leaf) leaf` and key 3. -/
theorem claim1_bst_preserved_witness :
    isBST (node 2 (node 1 leaf leaf) leaf) = true ∧
    (isBST (insert_recursive (node 2 (node 1 leaf leaf) leaf) 3) = true ∧
     isBST (insert_iterative (node 2 (node 1 leaf leaf) leaf) 3) = true ∧
     isBST (deleteNode (node 2 (node 1 leaf leaf) leaf) 3) = true ∧
     (keys (insert_recursive (node 2 (node 1 leaf leaf) leaf) 3)).Nodup ∧
     (keys (insert_iterative (node 2 (node 1 leaf leaf) leaf) 3)).Nodup ∧
     (keys (deleteNode (node 2 (node 1 leaf leaf) leaf) 3)).Nodup) :=
  ⟨by decide, claim1_bst_preserved (node 2 (node 1 leaf leaf) leaf) 3 (by decide)⟩

/-- C2: for every tree, deserializing the serialized token stream yields a
tree whose preorder-with-sentinel token sequence is identical token-for-token
to the original's; in fact the reloaded tree is structurally identical. -/
theorem claim2_roundtrip (t : Tree) :
    save_tree_preorder ((load_tree_preorder (save_tree_preorder t)).1) =
      save_tree_preorder t ∧
    (load_tree_preorder (save_tree_preorder t)).1 = t := by
  have h := load_save t []
  rw [List.append_nil] at h
  rw [h]
  exact ⟨rfl, rfl⟩

/-- C3 (counterexample): the stream consisting of the single token `5` is
malformed (the grammar needs two further subtrees), yet no error is surfaced
and the previously held tree `node 7 leaf leaf` is not left in place: the
load replaces it. -/
theorem claim3_counterexample :
    wellFormedStream [String.mk ['5']] = false ∧
    loadOverwrite (node 7 leaf leaf) [String.mk ['5']] ≠ node 7 leaf leaf := by
  refine ⟨wellFormed_single_digit_false, ?_⟩
  rw [loadOverwrite_single5]
  decide

/-- C3 (amended): on a malformed stream no error is surfaced; the result of
the load is determined by the stream alone — the tree being replaced is
discarded (`free_tree` runs before parsing), not preserved. -/
theorem claim3_amended_load (old1 old2 : Tree) (toks : List String)
    (_hmal : wellFormedStream toks = false) :
    loadOverwrite old1 toks = loadOverwrite old2 toks ∧
    loadOverwrite old1 toks = (load_tree_preorder toks).1 :=
  ⟨rfl, rfl⟩

/-- Witness for the amended C3 on the malformed single-token stream `5`. -/
theorem claim3_amended_load_witness :
    wellFormedStream [String.mk ['5']] = false ∧
    (loadOverwrite (node 7 leaf leaf) [String.mk ['5']] =
       loadOverwrite leaf [String.mk ['5']] ∧
     loadOverwrite (node 7 leaf leaf) [String.mk ['5']] =
       (load_tree_preorder [String.mk ['5']]).1) :=
  ⟨wellFormed_single_digit_false,
   claim3_amended_load (node 7 leaf leaf) leaf [String.mk ['5']]
     wellFormed_single_digit_false⟩

/-- C4: inserting a key already present in a BST (by either algorithm) and
deleting a key absent from the tree leave the tree identical to before the
call — in particular count, height and all four traversal sequences are
unchanged. -/
theorem claim4_noop_mutations (t : Tree) (k : Int) :
    (isBST t = true → k ∈ keys t →
      insert_recursive t k = t ∧
      insert_iterative t k = t ∧
      count_nodes (insert_recursive t k) = count_nodes t ∧
      height (insert_recursive t k) = height t ∧
      inorder (insert_recursive t k) = inorder t ∧
      preorder (insert_recursive t k) = preorder t ∧
      postorder (insert_recursive t k) = postorder t ∧
      levelOrder (insert_recursive t k) = levelOrder t) ∧
    (k ∉ keys t → deleteNode t k = t) := by
  constructor
  · intro hb hm
    have he := insert_rec_of_mem hb hm
    have hi : insert_iterative t k = t := by
      rw [insert_iterative_eq_rec]
      exact he
    exact ⟨he, hi, by rw [he], by rw [he], by rw [he], by rw [he], by rw [he],
      by rw [he]⟩
  · exact deleteNode_not_mem t k

/-- Witness for C4: duplicate insert of 1 and absent-key delete of 5 on the
BST `node 2 (node 1 leaf leaf) leaf`. -/
theorem claim4_noop_mutations_witness :
    (insert_recursive (node 2 (node 1 leaf leaf) leaf) 1 =
       node 2 (node 1 leaf leaf) leaf ∧
     insert_iterative (node 2 (node 1 leaf leaf) leaf) 1 =
       node 2 (node 1 leaf leaf) leaf ∧
     count_nodes (insert_recursive (node 2 (node 1 leaf leaf) leaf) 1) =
       count_nodes (node 2 (node 1 leaf leaf) leaf) ∧
     height (insert_recursive (node 2 (node 1 leaf leaf) leaf) 1) =
       height (node 2 (node 1 leaf leaf) leaf) ∧
     inorder (insert_recursive (node 2 (node 1 leaf leaf) leaf) 1) =
       inorder (node 2 (node 1 leaf leaf) leaf) ∧
     preorder (insert_recursive (node 2 (node 1 leaf leaf) leaf) 1) =
       preorder (node 2 (node 1 leaf leaf) leaf) ∧
     postorder (insert_recursive (node 2 (node 1 leaf leaf) leaf) 1) =
       postorder (node 2 (node 1 leaf leaf) leaf) ∧
     levelOrder (insert_recursive (node 2 (node 1 leaf leaf) leaf) 1) =
       levelOrder (node 2 (node 1 leaf leaf) leaf)) ∧
    deleteNode (node 2 (node 1 leaf leaf) leaf) 5 =
      node 2 (node 1 leaf leaf) leaf :=
  ⟨(claim4_noop_mutations (node 2 (node 1 leaf leaf) leaf) 1).1
      (by decide) (by decide),
   (claim4_noop_mutations (node 2 (node 1 leaf leaf) leaf) 5).2 (by decide)⟩

/-- C5: deleting the key of a BST node with two children copies the minimum
key of the right subtree into the node and deletes that key from the right
subtree; the minimum node has no left child, and the recursive deletion
reaches the two-child case zero times (the whole delete reaches it exactly
once). -/
theorem claim5_two_child_delete (k : Int) (l r : Tree)
    (hb : isBST (node k l r) = true) (hl : l ≠ leaf) (hr : r ≠ leaf) :
    deleteNode (node k l r) k =
      node (minKeyD r) l (deleteNode r (minKeyD r)) ∧
    (∃ rr, minValueNode r = node (minKeyD r) leaf rr) ∧
    delTwoChildHits (node k l r) k = 1 ∧
    delTwoChildHits r (minKeyD r) = 0 := by
  rw [isBST_node] at hb
  obtain ⟨hbl, hbr, hbL, hbR⟩ := hb
  have hhits : delTwoChildHits r (minKeyD r) = 0 := delTwoChildHits_min r hbR hr
  refine ⟨?_, ?_, ?_, hhits⟩
  · simp [deleteNode, hl, hr]
  · obtain ⟨m, rr, hm⟩ := minValueNode_shape r hr
    have hmk : minKeyD r = m := by rw [minKeyD, hm]
    rw [hmk]
    exact ⟨rr, hm⟩
  · rw [show delTwoChildHits (node k l r) k =
        1 + delTwoChildHits r (minKeyD r) from by
      simp [delTwoChildHits, hl, hr]]
    rw [hhits]

/-- Witness for C5 at the two-child root of
`node 2 (node 1 leaf leaf) (node 4 (node 3 leaf leaf) leaf)`. -/
theorem claim5_two_child_delete_witness :
    deleteNode (node 2 (node 1 leaf leaf) (node 4 (node 3 leaf leaf) leaf)) 2 =
      node (minKeyD (node 4 (node 3 leaf leaf) leaf)) (node 1 leaf leaf)
        (deleteNode (node 4 (node 3 leaf leaf) leaf)
          (minKeyD (node 4 (node 3 leaf leaf) leaf))) ∧
    (∃ rr, minValueNode (node 4 (node 3 leaf leaf) leaf) =
      node (minKeyD (node 4 (node 3 leaf leaf) leaf)) leaf rr) ∧
    delTwoChildHits (node 2 (node 1 leaf leaf)
      (node 4 (node 3 leaf leaf) leaf)) 2 = 1 ∧
    delTwoChildHits (node 4 (node 3 leaf leaf) leaf)
      (minKeyD (node 4 (node 3 leaf leaf) leaf)) = 0 :=
  claim5_two_child_delete 2 (node 1 leaf leaf) (node 4 (node 3 leaf leaf) leaf)
    (by decide) (by decide) (by decide)

/-- C6: for any finite sequence of insert/delete operations from the empty
tree, the inorder key sequence is strictly ascending and contains each key
that was inserted and not subsequently deleted exactly once. -/
theorem claim6_ops_inorder (ops : List Op) :
    (keys (runOps ops)).Sorted (fun a b : Int => a < b) ∧
    (∀ x : Int, x ∈ keys (runOps ops) ↔ x ∈ runModel ops) ∧
    (∀ x : Int, (keys (runOps ops)).count x =
      if x ∈ runModel ops then 1 else 0) := by
  have h := runOps_spec ops leaf ∅ rfl (by simp [keys, inorder])
  obtain ⟨hb, hmem⟩ := h
  refine ⟨sorted_keys_of_isBST hb, hmem, ?_⟩
  intro x
  by_cases hx : x ∈ runModel ops
  · rw [if_pos hx]
    exact List.count_eq_one_of_mem (nodup_keys_of_isBST hb) ((hmem x).2 hx)
  · rw [if_neg hx]
    exact List.count_eq_zero_of_not_mem (fun hc => hx ((hmem x).1 hc))

/-- C7: the recursive and the iterative insert are extensionally equal tree
transformers; in particular every insertion sequence from the empty tree
yields identical shapes under the two algorithms. -/
theorem claim7_insert_equivalence :
    (∀ (t : Tree) (k : Int), insert_iterative t k = insert_recursive t k) ∧
    (∀ ks : List Int, List.foldl insert_iterative leaf ks =
      List.foldl insert_recursive leaf ks) := by
  refine ⟨insert_iterative_eq_rec, ?_⟩
  have h : ∀ (ks : List Int) (t : Tree),
      List.foldl insert_iterative t ks = List.foldl insert_recursive t ks := by
    intro ks
    induction ks with
    | nil => intro t; rfl
    | cons k ks ih =>
      intro t
      rw [List.foldl_cons, List.foldl_cons, insert_iterative_eq_rec]
      exact ih (insert_recursive t k)
  exact fun ks => h ks leaf

/-- C8: on a BST, `predecessor` returns the largest key strictly below the
query and `successor` the smallest key strictly above it, whether or not the
query key is present; each returns `none` exactly when no such neighbor
exists. -/
theorem claim8_neighbor_queries (t : Tree) (k : Int) (hb : isBST t = true) :
    (predecessor t k = none ↔ ∀ x ∈ keys t, ¬x < k) ∧
    (∀ p, predecessor t k = some p →
      p ∈ keys t ∧ p < k ∧ ∀ x ∈ keys t, x < k → x ≤ p) ∧
    (successor t k = none ↔ ∀ x ∈ keys t, ¬k < x) ∧
    (∀ s2, successor t k = some s2 →
      s2 ∈ keys t ∧ k < s2 ∧ ∀ x ∈ keys t, k < x → s2 ≤ x) := by
  have hP := predGo_spec t k none hb (by intro a ha; simp at ha)
  have hS := succGo_spec t k none hb (by intro a ha; simp at ha)
  refine ⟨?_, ?_, ?_, ?_⟩
  · constructor
    · intro h
      exact (hP.1 h).2
    · intro h
      cases hres : predecessor t k with
      | none => rfl
      | some p =>
        obtain ⟨hor, _, _⟩ := hP.2 p hres
        rcases hor with ⟨hm, hlt⟩ | habs
        · exact absurd hlt (h p hm)
        · simp at habs
  · intro p hp
    obtain ⟨hor, hbound, _⟩ := hP.2 p hp
    rcases hor with ⟨hm, hlt⟩ | habs
    · exact ⟨hm, hlt, hbound⟩
    · simp at habs
  · constructor
    · intro h
      exact (hS.1 h).2
    · intro h
      cases hres : successor t k with
      | none => rfl
      | some p =>
        obtain ⟨hor, _, _⟩ := hS.2 p hres
        rcases hor with ⟨hm, hlt⟩ | habs
        · exact absurd hlt (h p hm)
        · simp at habs
  · intro p hp
    obtain ⟨hor, hbound, _⟩ := hS.2 p hp
    rcases hor with ⟨hm, hlt⟩ | habs
    · exact ⟨hm, hlt, hbound⟩
    · simp at habs

/-- Witness for C8 on the BST `node 2 (node 1 leaf leaf) (node 3 leaf leaf)`
with query key 2. -/
theorem claim8_neighbor_queries_witness :
    (predecessor (node 2 (node 1 leaf leaf) (node 3 leaf leaf)) 2 = none ↔
      ∀ x ∈ keys (node 2 (node 1 leaf leaf) (node 3 leaf leaf)), ¬x < 2) ∧
    (∀ p, predecessor (node 2 (node 1 leaf leaf) (node 3 leaf leaf)) 2 =
        some p →
      p ∈ keys (node 2 (node 1 leaf leaf) (node 3 leaf leaf)) ∧ p < 2 ∧
      ∀ x ∈ keys (node 2 (node 1 leaf leaf) (node 3 leaf leaf)),
        x < 2 → x ≤ p) ∧
    (successor (node 2 (node 1 leaf leaf) (node 3 leaf leaf)) 2 = none ↔
      ∀ x ∈ keys (node 2 (node 1 leaf leaf) (node 3 leaf leaf)), ¬2 < x) ∧
    (∀ s2, successor (node 2 (node 1 leaf leaf) (node 3 leaf leaf)) 2 =
        some s2 →
      s2 ∈ keys (node 2 (node 1 leaf leaf) (node 3 leaf leaf)) ∧ 2 < s2 ∧
      ∀ x ∈ keys (node 2 (node 1 leaf leaf) (node 3 leaf leaf)),
        2 < x → s2 ≤ x) :=
  claim8_neighbor_queries (node 2 (node 1 leaf leaf) (node 3 leaf leaf)) 2
    (by decide)

/-- C9: `height` is 0 on the empty tree and otherwise one more than the
larger child height; `count_nodes` is 0 on empty and otherwise one more than
the children's sum; `count_leaves` is 0 on empty, 1 on a childless node and
otherwise the children's sum. -/
theorem claim9_statistics :
    height leaf = 0 ∧
    (∀ (k : Int) (l r : Tree),
      height (node k l r) = 1 + max (height l) (height r)) ∧
    count_nodes leaf = 0 ∧
    (∀ (k : Int) (l r : Tree),
      count_nodes (node k l r) = 1 + count_nodes l + count_nodes r) ∧
    count_leaves leaf = 0 ∧
    (∀ k : Int, count_leaves (node k leaf leaf) = 1) ∧
    (∀ (k : Int) (l r : Tree), (l ≠ leaf ∨ r ≠ leaf) →
      count_leaves (node k l r) = count_leaves l + count_leaves r) := by
  refine ⟨rfl, ?_, rfl, fun k l r => rfl, rfl, ?_, ?_⟩
  · intro k l r
    show (if height r < height l then height l else height r) + 1 = _
    split <;> omega
  · intro k
    simp [count_leaves]
  · intro k l r h
    have hne : ¬(l = leaf ∧ r = leaf) := by tauto
    show (if l = leaf ∧ r = leaf then 1
      else count_leaves l + count_leaves r) = _
    rw [if_neg hne]

/-- Witness for C9's conditional leaf-count clause at a node with one child. -/
theorem claim9_statistics_witness :
    count_leaves (node 2 (node 1 leaf leaf) leaf) =
      count_leaves (node 1 leaf leaf) + count_leaves leaf :=
  claim9_statistics.2.2.2.2.2.2 2 (node 1 leaf leaf) leaf (Or.inl (by decide))

/-- C10: deserialization never signals an error: end-of-stream where a
subtree is expected yields the absent subtree, and any non-sentinel token
becomes a node whose key is the `atoi` value of the token — 0 when the token
has no leading sign or digit. -/
theorem claim10_no_load_errors :
    load_tree_preorder [] = (leaf, []) ∧
    (∀ (s : String) (rest : List String), s ≠ hashTok →
      ∃ l r rest2,
        load_tree_preorder (s :: rest) = (node (atoi s) l r, rest2)) ∧
    (∀ (c : Char) (cs : List Char), isSpaceC c = false → c.isDigit = false →
      c ≠ '-' → c ≠ '+' → atoi (String.mk (c :: cs)) = 0) := by
  refine ⟨load_nil, ?_, ?_⟩
  · intro s rest h
    rw [load_cons s rest h]
    exact ⟨_, _, _, rfl⟩
  · intro c cs hsp hdig hm hp
    rw [atoi_cons c cs hsp, if_neg hm, if_neg hp]
    simp [digitsVal, hdig]

/-- Witness for C10: the non-numeric token `a` still loads as a node and
`atoi` maps `abc` to 0. -/
theorem claim10_no_load_errors_witness :
    (∃ l r rest2, load_tree_preorder [String.mk ['a']] =
      (node (atoi (String.mk ['a'])) l r, rest2)) ∧
    atoi (String.mk ['a', 'b', 'c']) = 0 :=
  ⟨claim10_no_load_errors.2.1 (String.mk ['a']) [] (by decide),
   claim10_no_load_errors.2.2 'a' ['b', 'c'] (by decide) (by decide)
     (by decide) (by decide)⟩

end BstExt
